import Mathlib

/-!
Verification of the trade lot-accounting and realized-P&L engine of the
tt2026web repository, embedded shallowly from
`src/web/services/ibkr_service.py`.  Python floats are modelled by `ℚ`
(all claims involve exact decimal arithmetic); nullable numeric fields
are `Option ℚ`; the pandas dataframe columns `realized_pnl` and
`remaining_qty` written back by positional index are modelled as
functions `Nat → ℚ` updated pointwise; the per-symbol `inventory` dict
is a function `String → List Lot`.
-/

namespace TT

/-- A trade row as consumed by `calculate_pnl`: only the fields the engine
reads.  `quantity`, `tradePrice`, `multiplier` are nullable in the store. -/
structure Trade where
  symbol : String
  quantity : Option ℚ
  tradePrice : Option ℚ
  multiplier : Option ℚ
  deriving DecidableEq, Repr

instance : Inhabited Trade := ⟨⟨"", none, none, none⟩⟩

/-- `float(row['quantity']) if row['quantity'] else 0.0` : null (or falsy 0)
coerces to 0. -/
def coerceQty (t : Trade) : ℚ := t.quantity.getD 0

/-- `float(row['tradePrice']) if row['tradePrice'] else 0.0`. -/
def coercePrice (t : Trade) : ℚ := t.tradePrice.getD 0

/-- `float(row['multiplier']) if row['multiplier'] else 1.0` : null and the
falsy value 0 both coerce to 1. -/
def coerceMult (t : Trade) : ℚ :=
  match t.multiplier with
  | none => 1
  | some m => if m = 0 then 1 else m

/-- An open lot in the FIFO inventory: `{'idx': idx, 'qty': qty, 'price': price}`. -/
structure Lot where
  idx : Nat
  qty : ℚ
  price : ℚ
  deriving DecidableEq, Repr

/-- The mutable state of the `calculate_pnl` loop: the per-symbol inventory
dict plus the two dataframe columns written back by row index. -/
structure PnlState where
  inv : String → List Lot
  realized : Nat → ℚ
  remaining : Nat → ℚ

/-- Pointwise update of a function, modelling `trades_df.at[idx, col] = v`
and `inventory[symbol] = lots`. -/
def updF {α β : Type} [DecidableEq α] (f : α → β) (a : α) (b : β) : α → β :=
  fun x => if x = a then b else f x

/-- Python's `abs` on a float. -/
def absQ (x : ℚ) : ℚ := if x < 0 then -x else x

/-- Result of the inner `while` loop that consumes open lots. -/
structure CloseResult where
  pnl : ℚ
  residual : ℚ
  lots : List Lot
  remaining : Nat → ℚ

/-- The inner `while qty_to_process != 0 and inventory[symbol]:` loop of
`calculate_pnl`, consuming open lots from the front of the queue. -/
def consumeLots (price mult : ℚ) : ℚ → List Lot → (Nat → ℚ) → CloseResult
  | q, [], rem => ⟨0, q, [], rem⟩
  | q, lot :: rest, rem =>
    if q = 0 then ⟨0, 0, lot :: rest, rem⟩
    else if absQ lot.qty ≤ absQ q then
      -- fully consume this open lot
      let matchQty := -lot.qty
      let r := consumeLots price mult (q - matchQty) rest (updF rem lot.idx 0)
      ⟨-(price - lot.price) * matchQty * mult + r.pnl, r.residual, r.lots, r.remaining⟩
    else
      -- partially consume the open lot
      ⟨-(price - lot.price) * q * mult, 0,
        ⟨lot.idx, lot.qty + q, lot.price⟩ :: rest, updF rem lot.idx (lot.qty + q)⟩

/-- One iteration of the `for idx, row in trades_df.iterrows():` loop. -/
def pnlStep (i : Nat) (t : Trade) (st : PnlState) : PnlState :=
  let q := coerceQty t
  let p := coercePrice t
  match st.inv t.symbol with
  | [] =>
    { st with remaining := updF st.remaining i q,
              inv := updF st.inv t.symbol [⟨i, q, p⟩] }
  | head :: rest =>
    if (0 < q ∧ 0 < head.qty) ∨ (q < 0 ∧ head.qty < 0) then
      { st with remaining := updF st.remaining i q,
                inv := updF st.inv t.symbol ((head :: rest) ++ [⟨i, q, p⟩]) }
    else
      let r := consumeLots p (coerceMult t) q (head :: rest) st.remaining
      if r.residual = 0 then
        { inv := updF st.inv t.symbol r.lots,
          realized := updF st.realized i r.pnl,
          remaining := r.remaining }
      else
        { inv := updF st.inv t.symbol (r.lots ++ [⟨i, r.residual, p⟩]),
          realized := updF st.realized i r.pnl,
          remaining := updF r.remaining i r.residual }

/-- Initial state: empty inventory, both derived columns all 0.0. -/
def initState : PnlState := ⟨fun _ => [], fun _ => 0, fun _ => 0⟩

/-- The state after the first `n` trades of the list have been processed,
in order, each at its positional index. -/
def pnlRun (ts : List Trade) : Nat → PnlState
  | 0 => initState
  | n + 1 => pnlStep n (ts.getD n default) (pnlRun ts n)

/-- `calculate_pnl`: run the FIFO loop over the whole trade list. -/
def calculate_pnl (ts : List Trade) : PnlState := pnlRun ts ts.length

/-! ## Basic lemmas about the engine -/

lemma absQ_neg (x : ℚ) : absQ (-x) = absQ x := by
  unfold absQ
  by_cases h : x < 0
  · rw [if_pos h, if_neg (by linarith : ¬(-x < 0))]
  · by_cases h0 : x = 0
    · subst h0; norm_num
    · have hx : 0 < x := lt_of_le_of_ne (not_lt.mp h) (Ne.symm h0)
      rw [if_pos (by linarith : -x < 0), if_neg h, neg_neg]

/-- If the inner loop ends with a nonzero residual, it has consumed the
entire lot queue. -/
lemma consumeLots_residual_ne_zero (p m : ℚ) (q : ℚ) (lots : List Lot) (rem : Nat → ℚ)
    (h : (consumeLots p m q lots rem).residual ≠ 0) :
    (consumeLots p m q lots rem).lots = [] := by
  induction lots generalizing q rem with
  | nil => simp [consumeLots]
  | cons lot rest ih =>
    by_cases h0 : q = 0
    · simp [consumeLots, h0] at h
    · by_cases habs : absQ lot.qty ≤ absQ q
      · simp only [consumeLots, if_neg h0, if_pos habs] at h ⊢
        exact ih _ _ h
      · simp [consumeLots, h0, habs] at h

/-! ## C1 : sign symmetry of the realized-P&L formula -/

/-- C1 (amended, general form): for a single-symbol round trip that opens a
position of quantity `q` at price `p₁` and closes all of it at price `p₂`
(both trades carrying multiplier `m`), the closing trade's realized P&L is
`-(p₂ - p₁) * (-q) * m` where `-q` is the negation of the opening lot's
signed quantity.  For the long round trip (`q = 100`, 10 → 12) this is
`+200`; for the short round trip (`q = -100`, 12 → 10) this is
`-(10-12)*(+100)*1 = +200` (a profit, covering at a lower price), not the
`-200` stated in the claim; multiplier `m = 100` scales the same price
delta's P&L by 100. -/
theorem c1_round_trip (s : String) (q p₁ p₂ m : ℚ) (hq : q ≠ 0) (hm : m ≠ 0) :
    (calculate_pnl [⟨s, some q, some p₁, some m⟩, ⟨s, some (-q), some p₂, some m⟩]).realized 1
      = -(p₂ - p₁) * (-q) * m := by
  have hq' : ¬(-q = 0) := by simpa using hq
  simp [calculate_pnl, pnlRun, pnlStep, consumeLots, initState, coerceQty, coercePrice,
    coerceMult, updF, absQ_neg, hq', hm]
  rw [if_neg (by rintro (⟨h1, h2⟩ | ⟨h1, h2⟩) <;> linarith :
    ¬(q < 0 ∧ 0 < q ∨ 0 < q ∧ q < 0))]
  simp [updF]

/-- C1 witness: the long round trip 100@10 → 100@12 realizes +200, the
short round trip at multiplier 1 realizes +200, and multiplier 100 scales
the long round trip to +20000, all by the general round-trip theorem. -/
theorem c1_round_trip_witness :
    (calculate_pnl [⟨"X", some 100, some 10, some (1 : ℚ)⟩,
        ⟨"X", some (-100), some 12, some 1⟩]).realized 1 = 200 ∧
    (calculate_pnl [⟨"X", some (-100), some 12, some (1 : ℚ)⟩,
        ⟨"X", some 100, some 10, some 1⟩]).realized 1 = 200 ∧
    (calculate_pnl [⟨"X", some 100, some 10, some (100 : ℚ)⟩,
        ⟨"X", some (-100), some 12, some 100⟩]).realized 1 = 20000 := by
  refine ⟨?_, ?_, ?_⟩
  · have h := c1_round_trip "X" 100 10 12 1 (by norm_num) (by norm_num)
    rw [h]; norm_num
  · have h := c1_round_trip "X" (-100) 12 10 1 (by norm_num) (by norm_num)
    norm_num at h
    exact h
  · have h := c1_round_trip "X" 100 10 12 100 (by norm_num) (by norm_num)
    rw [h]; norm_num

/-- C1 counterexample: the claim's short-round-trip value is wrong on the
code.  Selling short 100@12 then buying 100@10 to cover gives the closing
buy trade `realized_pnl = +200` (the code's `match_qty` is `-open_qty =
+100`), not `-200` as the claim states. -/
theorem c1_counterexample :
    (calculate_pnl [⟨"X", some (-100), some 12, some 1⟩,
        ⟨"X", some 100, some 10, some 1⟩]).realized 1 = 200 ∧
    (calculate_pnl [⟨"X", some (-100), some 12, some 1⟩,
        ⟨"X", some 100, some 10, some 1⟩]).realized 1 ≠ -200 := by
  constructor <;>
    norm_num [calculate_pnl, pnlRun, pnlStep, consumeLots, initState, coerceQty,
      coercePrice, coerceMult, updF, absQ]

/-! ## C2 : flip-through -/

/-- C2: on the two-trade single-symbol input (buy 50@10, then sell 80@12)
the sell trade gets `realized_pnl = 100` and `remaining_qty = -30` and the
buy trade's `remaining_qty` is set to 0; and in general, whenever a closing
trade's inner loop ends with a nonzero residual, the open-lot queue has
been exhausted, a new lot with that residual quantity at the closing
trade's own price is pushed, and the closing trade's `remaining_qty` is
set to that residual. -/
theorem c2_flip_through :
    ((calculate_pnl [⟨"X", some 50, some 10, some 1⟩,
        ⟨"X", some (-80), some 12, some 1⟩]).realized 1 = 100 ∧
     (calculate_pnl [⟨"X", some 50, some 10, some 1⟩,
        ⟨"X", some (-80), some 12, some 1⟩]).remaining 1 = -30 ∧
     (calculate_pnl [⟨"X", some 50, some 10, some 1⟩,
        ⟨"X", some (-80), some 12, some 1⟩]).remaining 0 = 0) ∧
    (∀ (st : PnlState) (i : Nat) (t : Trade) (head : Lot) (rest : List Lot) (r : CloseResult),
      st.inv t.symbol = head :: rest →
      ¬((0 < coerceQty t ∧ 0 < head.qty) ∨ (coerceQty t < 0 ∧ head.qty < 0)) →
      consumeLots (coercePrice t) (coerceMult t) (coerceQty t) (head :: rest) st.remaining = r →
      r.residual ≠ 0 →
      r.lots = [] ∧
      (pnlStep i t st).inv t.symbol = [⟨i, r.residual, coercePrice t⟩] ∧
      (pnlStep i t st).remaining i = r.residual) := by
  constructor
  · refine ⟨?_, ?_, ?_⟩ <;>
      norm_num [calculate_pnl, pnlRun, pnlStep, consumeLots, initState, coerceQty,
        coercePrice, coerceMult, updF, absQ]
  · intro st i t head rest r hinv hsign hr hres
    have hlots : r.lots = [] := by
      rw [← hr]
      exact consumeLots_residual_ne_zero _ _ _ _ _ (by rw [hr]; exact hres)
    refine ⟨hlots, ?_, ?_⟩ <;>
      · simp only [pnlStep, hinv, hr]
        rw [if_neg hsign, if_neg hres]
        simp [updF, hlots]

/-- C2 witness: the general residual-push clause applied at the concrete
flip-through step (sell 80@12 against the single open lot 50@10). -/
theorem c2_flip_through_witness :
    (pnlStep 1 ⟨"X", some (-80), some 12, some 1⟩
        (pnlStep 0 ⟨"X", some 50, some 10, some 1⟩ initState)).inv "X"
      = [⟨1, -30, 12⟩] ∧
    (pnlStep 1 ⟨"X", some (-80), some 12, some 1⟩
        (pnlStep 0 ⟨"X", some 50, some 10, some 1⟩ initState)).remaining 1 = -30 := by
  have h := c2_flip_through.2 (pnlStep 0 ⟨"X", some 50, some 10, some 1⟩ initState) 1
    ⟨"X", some (-80), some 12, some 1⟩ ⟨0, 50, 10⟩ []
    ⟨100, -30, [], updF (updF (fun _ => 0) 0 50) 0 0⟩
    (by norm_num [pnlStep, initState, updF, coerceQty, coercePrice])
    (by norm_num [coerceQty])
    (by norm_num [consumeLots, coerceQty, coercePrice, coerceMult, absQ, updF,
      pnlStep, initState])
    (by norm_num)
  exact ⟨by simpa using h.2.1, by simpa using h.2.2⟩

/-! ## C3 : conservation -/

/-- Symbol of the trade at positional index `i`. -/
def symAt (ts : List Trade) (i : Nat) : String := (ts.getD i default).symbol

/-- Coerced signed quantity of the trade at positional index `i`. -/
def qtyAt (ts : List Trade) (i : Nat) : ℚ := coerceQty (ts.getD i default)

/-- Sum of the signed quantities of symbol `s` among the first `n` trades. -/
def qtySumUpTo (ts : List Trade) (s : String) (n : Nat) : ℚ :=
  ∑ i in Finset.range n, (if symAt ts i = s then qtyAt ts i else 0)

/-- Sum of the `remaining_qty` values attributed to symbol `s`'s trades. -/
def remSumUpTo (ts : List Trade) (st : PnlState) (s : String) (n : Nat) : ℚ :=
  ∑ i in Finset.range n, (if symAt ts i = s then st.remaining i else 0)

/-- Total quantity held in a lot queue. -/
def lotSum (lots : List Lot) : ℚ := (lots.map Lot.qty).sum

/-- Quantity of the lot originating from trade `i`, or 0 if no such lot. -/
def findLotQty : List Lot → Nat → ℚ
  | [], _ => 0
  | lot :: rest, i => if lot.idx = i then lot.qty else findLotQty rest i

lemma updF_self {α β : Type} [DecidableEq α] (f : α → β) (a : α) (b : β) :
    updF f a b a = b := by simp [updF]

lemma updF_ne {α β : Type} [DecidableEq α] (f : α → β) (a : α) (b : β) (x : α)
    (h : x ≠ a) : updF f a b x = f x := by simp [updF, h]

lemma findLotQty_not_mem (lots : List Lot) (i : Nat) (h : i ∉ lots.map Lot.idx) :
    findLotQty lots i = 0 := by
  induction lots with
  | nil => rfl
  | cons lot rest ih =>
    simp only [List.map_cons, List.mem_cons, not_or] at h
    rw [findLotQty, if_neg (fun he => h.1 he.symm), ih h.2]

lemma findLotQty_append (l₁ l₂ : List Lot) (i : Nat) :
    findLotQty (l₁ ++ l₂) i
      = if i ∈ l₁.map Lot.idx then findLotQty l₁ i else findLotQty l₂ i := by
  induction l₁ with
  | nil => simp [findLotQty]
  | cons lot rest ih =>
    by_cases hl : lot.idx = i
    · subst hl
      simp [findLotQty]
    · rw [List.cons_append, findLotQty, if_neg hl, ih, findLotQty, if_neg hl,
        List.map_cons]
      by_cases hmem : i ∈ rest.map Lot.idx
      · rw [if_pos hmem, if_pos (List.mem_cons_of_mem _ hmem)]
      · rw [if_neg hmem, if_neg ?_]
        intro hc
        rcases List.mem_cons.mp hc with he | hm
        · exact hl he.symm
        · exact hmem hm

lemma lotSum_append (l₁ l₂ : List Lot) : lotSum (l₁ ++ l₂) = lotSum l₁ + lotSum l₂ := by
  simp [lotSum]

/-- The lot indices surviving the inner loop are a sublist of the input ones. -/
lemma consumeLots_idx_sublist (p m : ℚ) (q : ℚ) (lots : List Lot) (rem : Nat → ℚ) :
    List.Sublist (((consumeLots p m q lots rem).lots).map Lot.idx)
      (lots.map Lot.idx) := by
  induction lots generalizing q rem with
  | nil => simp [consumeLots]
  | cons lot rest ih =>
    by_cases h0 : q = 0
    · simp [consumeLots, h0]
    · by_cases habs : absQ lot.qty ≤ absQ q
      · simp only [consumeLots, if_neg h0, if_pos habs]
        exact List.Sublist.trans (ih _ _) (List.sublist_cons_self _ _)
      · simp [consumeLots, h0, habs]

/-- The inner loop leaves `remaining_qty` untouched outside the queue's
own trade indices. -/
lemma consumeLots_remaining_not_mem (p m : ℚ) (q : ℚ) (lots : List Lot)
    (rem : Nat → ℚ) (j : Nat) (h : j ∉ lots.map Lot.idx) :
    (consumeLots p m q lots rem).remaining j = rem j := by
  induction lots generalizing q rem with
  | nil => simp [consumeLots]
  | cons lot rest ih =>
    simp only [List.map_cons, List.mem_cons, not_or] at h
    by_cases h0 : q = 0
    · simp [consumeLots, h0]
    · by_cases habs : absQ lot.qty ≤ absQ q
      · simp only [consumeLots, if_neg h0, if_pos habs]
        rw [ih _ _ h.2, updF_ne _ _ _ _ h.1]
      · simp only [consumeLots, if_neg h0, if_neg habs]
        exact updF_ne _ _ _ _ h.1

/-- Inside the queue's trade indices, the inner loop rewrites
`remaining_qty` to agree with the surviving lots. -/
lemma consumeLots_remaining_mem (p m : ℚ) (q : ℚ) (lots : List Lot)
    (rem : Nat → ℚ) (hnd : (lots.map Lot.idx).Nodup)
    (hpre : ∀ j ∈ lots.map Lot.idx, rem j = findLotQty lots j) :
    ∀ j ∈ lots.map Lot.idx,
      (consumeLots p m q lots rem).remaining j
        = findLotQty (consumeLots p m q lots rem).lots j := by
  induction lots generalizing q rem with
  | nil => simp
  | cons lot rest ih =>
    intro j hj
    rw [List.map_cons] at hj
    simp only [List.map_cons, List.nodup_cons] at hnd
    by_cases h0 : q = 0
    · simp only [consumeLots, if_pos h0]
      rw [hpre j (by rw [List.map_cons]; exact hj)]
    · by_cases habs : absQ lot.qty ≤ absQ q
      · simp only [consumeLots, if_neg h0, if_pos habs]
        rcases List.mem_cons.mp hj with hjl | hjr
        · -- j is the fully consumed head lot: set to 0 and gone
          subst hjl
          rw [consumeLots_remaining_not_mem _ _ _ _ _ _ hnd.1, updF_self,
            findLotQty_not_mem]
          intro hmem
          exact hnd.1 ((consumeLots_idx_sublist p m _ rest _).subset hmem)
        · -- j survives into the recursive call
          refine ih _ _ hnd.2 ?_ j hjr
          intro j' hj'
          have hne : j' ≠ lot.idx := fun he => hnd.1 (he ▸ hj')
          rw [updF_ne _ _ _ _ hne,
            hpre j' (by rw [List.map_cons]; exact List.mem_cons_of_mem _ hj'),
            findLotQty, if_neg (Ne.symm hne)]
      · simp only [consumeLots, if_neg h0, if_neg habs]
        rcases List.mem_cons.mp hj with hjl | hjr
        · subst hjl
          rw [updF_self, findLotQty, if_pos rfl]
        · have hne : j ≠ lot.idx := fun he => hnd.1 (he ▸ hjr)
          rw [updF_ne _ _ _ _ hne,
            hpre j (by rw [List.map_cons]; exact hj), findLotQty,
            if_neg (Ne.symm hne), findLotQty, if_neg (Ne.symm hne)]

/-- Conservation through the inner loop: surviving inventory plus residual
equals incoming inventory plus the closing quantity. -/
lemma consumeLots_sum (p m : ℚ) (q : ℚ) (lots : List Lot) (rem : Nat → ℚ) :
    lotSum (consumeLots p m q lots rem).lots + (consumeLots p m q lots rem).residual
      = lotSum lots + q := by
  induction lots generalizing q rem with
  | nil => simp [consumeLots, lotSum]
  | cons lot rest ih =>
    by_cases h0 : q = 0
    · simp [consumeLots, h0]
    · by_cases habs : absQ lot.qty ≤ absQ q
      · simp only [consumeLots, if_neg h0, if_pos habs]
        rw [ih (q - -lot.qty) (updF rem lot.idx 0)]
        simp only [lotSum, List.map_cons, List.sum_cons]
        ring
      · simp only [consumeLots, if_neg h0, if_neg habs]
        simp only [lotSum, List.map_cons, List.sum_cons]
        ring

/-- `pnlStep` on an empty inventory: open a fresh lot. -/
lemma pnlStep_nil (i : Nat) (t : Trade) (st : PnlState)
    (h : st.inv t.symbol = []) :
    pnlStep i t st
      = { st with remaining := updF st.remaining i (coerceQty t),
                  inv := updF st.inv t.symbol [⟨i, coerceQty t, coercePrice t⟩] } := by
  simp only [pnlStep, h]

/-- `pnlStep` when the head lot has the same sign: append a lot. -/
lemma pnlStep_same_sign (i : Nat) (t : Trade) (st : PnlState) (head : Lot)
    (rest : List Lot) (h : st.inv t.symbol = head :: rest)
    (hs : (0 < coerceQty t ∧ 0 < head.qty) ∨ (coerceQty t < 0 ∧ head.qty < 0)) :
    pnlStep i t st
      = { st with remaining := updF st.remaining i (coerceQty t),
                  inv := updF st.inv t.symbol
                    ((head :: rest) ++ [⟨i, coerceQty t, coercePrice t⟩]) } := by
  simp only [pnlStep, h]
  rw [if_pos hs]

/-- `pnlStep` in the reduce/close case with no residual left. -/
lemma pnlStep_close (i : Nat) (t : Trade) (st : PnlState) (head : Lot)
    (rest : List Lot) (h : st.inv t.symbol = head :: rest)
    (hs : ¬((0 < coerceQty t ∧ 0 < head.qty) ∨ (coerceQty t < 0 ∧ head.qty < 0)))
    (hres : (consumeLots (coercePrice t) (coerceMult t) (coerceQty t)
      (head :: rest) st.remaining).residual = 0) :
    pnlStep i t st
      = { inv := updF st.inv t.symbol
            (consumeLots (coercePrice t) (coerceMult t) (coerceQty t)
              (head :: rest) st.remaining).lots,
          realized := updF st.realized i
            (consumeLots (coercePrice t) (coerceMult t) (coerceQty t)
              (head :: rest) st.remaining).pnl,
          remaining := (consumeLots (coercePrice t) (coerceMult t) (coerceQty t)
            (head :: rest) st.remaining).remaining } := by
  simp only [pnlStep, h]
  rw [if_neg hs, if_pos hres]

/-- `pnlStep` in the reduce/close case that flips the position. -/
lemma pnlStep_flip (i : Nat) (t : Trade) (st : PnlState) (head : Lot)
    (rest : List Lot) (h : st.inv t.symbol = head :: rest)
    (hs : ¬((0 < coerceQty t ∧ 0 < head.qty) ∨ (coerceQty t < 0 ∧ head.qty < 0)))
    (hres : (consumeLots (coercePrice t) (coerceMult t) (coerceQty t)
      (head :: rest) st.remaining).residual ≠ 0) :
    pnlStep i t st
      = { inv := updF st.inv t.symbol
            ((consumeLots (coercePrice t) (coerceMult t) (coerceQty t)
                (head :: rest) st.remaining).lots
              ++ [⟨i, (consumeLots (coercePrice t) (coerceMult t) (coerceQty t)
                    (head :: rest) st.remaining).residual, coercePrice t⟩]),
          realized := updF st.realized i
            (consumeLots (coercePrice t) (coerceMult t) (coerceQty t)
              (head :: rest) st.remaining).pnl,
          remaining := updF
            (consumeLots (coercePrice t) (coerceMult t) (coerceQty t)
              (head :: rest) st.remaining).remaining i
            (consumeLots (coercePrice t) (coerceMult t) (coerceQty t)
              (head :: rest) st.remaining).residual } := by
  simp only [pnlStep, h]
  rw [if_neg hs, if_neg hres]

/-- The loop invariant of `calculate_pnl` after `n` processed trades: every
lot's `idx` points to an earlier trade of its own symbol, lot indices are
unique, `remaining_qty` agrees pointwise with the open-lot inventory, and
each symbol's inventory total equals its processed signed-quantity total. -/
structure EngineInv (ts : List Trade) (n : Nat) (st : PnlState) : Prop where
  idx_lt : ∀ s, ∀ l ∈ st.inv s, l.idx < n
  idx_sym : ∀ s, ∀ l ∈ st.inv s, symAt ts l.idx = s
  idx_nodup : ∀ s, ((st.inv s).map Lot.idx).Nodup
  rem_eq : ∀ i, st.remaining i = findLotQty (st.inv (symAt ts i)) i
  sum_eq : ∀ s, lotSum (st.inv s) = qtySumUpTo ts s n

lemma engineInv_init (ts : List Trade) : EngineInv ts 0 initState := by
  refine ⟨?_, ?_, ?_, ?_, ?_⟩ <;>
    simp [initState, findLotQty, lotSum, qtySumUpTo]

lemma qtySumUpTo_succ (ts : List Trade) (s : String) (n : Nat) :
    qtySumUpTo ts s (n + 1)
      = qtySumUpTo ts s n + (if symAt ts n = s then qtyAt ts n else 0) := by
  simp [qtySumUpTo, Finset.sum_range_succ]

lemma not_mem_idx_of_lt (st : PnlState) (ts : List Trade) (n : Nat)
    (h : EngineInv ts n st) (s : String) : n ∉ (st.inv s).map Lot.idx := by
  intro hmem
  rcases List.mem_map.mp hmem with ⟨l, hl, hidx⟩
  exact absurd (h.idx_lt s l hl) (by omega)

/-- Invariant preservation for the two branches that push a lot for the
incoming trade (empty inventory, or same-sign head). -/
lemma engineInv_push (ts : List Trade) (n : Nat) (st : PnlState)
    (h : EngineInv ts n st) :
    EngineInv ts (n + 1)
      { st with remaining := updF st.remaining n (qtyAt ts n),
                inv := updF st.inv (symAt ts n)
                  (st.inv (symAt ts n)
                    ++ [⟨n, qtyAt ts n, coercePrice (ts.getD n default)⟩]) } := by
  set s₀ := symAt ts n with hs₀
  set newLot : Lot := ⟨n, qtyAt ts n, coercePrice (ts.getD n default)⟩ with hnew
  have hnotmem : ∀ s, n ∉ (st.inv s).map Lot.idx := not_mem_idx_of_lt st ts n h
  refine ⟨?_, ?_, ?_, ?_, ?_⟩ <;> dsimp only
  · intro s l hl
    by_cases hss : s = s₀
    · subst hss
      rw [updF_self] at hl
      rcases List.mem_append.mp hl with hm | hm
      · exact Nat.lt_succ_of_lt (h.idx_lt _ _ hm)
      · rcases List.mem_singleton.mp hm with rfl
        exact Nat.lt_succ_self n
    · rw [updF_ne _ _ _ _ hss] at hl
      exact Nat.lt_succ_of_lt (h.idx_lt _ _ hl)
  · intro s l hl
    by_cases hss : s = s₀
    · subst hss
      rw [updF_self] at hl
      rcases List.mem_append.mp hl with hm | hm
      · exact h.idx_sym _ _ hm
      · rcases List.mem_singleton.mp hm with rfl
        rfl
    · rw [updF_ne _ _ _ _ hss] at hl
      exact h.idx_sym _ _ hl
  · intro s
    by_cases hss : s = s₀
    · subst hss
      rw [updF_self, List.map_append]
      refine List.Nodup.append (h.idx_nodup _) (List.nodup_singleton _) ?_
      intro a ha hb
      rcases List.mem_singleton.mp hb with rfl
      exact hnotmem _ ha
    · rw [updF_ne _ _ _ _ hss]
      exact h.idx_nodup s
  · intro i
    by_cases hin : i = n
    · subst hin
      show updF st.remaining i (qtyAt ts i) i = _
      rw [updF_self, ← hs₀, updF_self, findLotQty_append,
        if_neg (hnotmem s₀), findLotQty, if_pos rfl]
    · show updF st.remaining n (qtyAt ts n) i = _
      rw [updF_ne _ _ _ _ hin, h.rem_eq i]
      by_cases hsi : symAt ts i = s₀
      · rw [hsi, updF_self, findLotQty_append]
        by_cases hmem : i ∈ (st.inv s₀).map Lot.idx
        · rw [if_pos hmem]
        · rw [if_neg hmem, findLotQty, if_neg (fun he => hin he.symm),
            findLotQty, findLotQty_not_mem _ _ hmem]
      · rw [updF_ne _ _ _ _ hsi]
  · intro s
    by_cases hss : s = s₀
    · subst hss
      rw [updF_self, lotSum_append, qtySumUpTo_succ, h.sum_eq s₀, ← hs₀,
        if_pos rfl]
      simp [lotSum, hnew]
    · rw [updF_ne _ _ _ _ hss, qtySumUpTo_succ, ← hs₀,
        if_neg (fun he => hss he.symm), add_zero, h.sum_eq s]

/-- Invariant preservation for the reduce/close branch. -/
lemma engineInv_close (ts : List Trade) (n : Nat) (st : PnlState)
    (h : EngineInv ts n st) (head : Lot) (rest : List Lot)
    (hinv : st.inv (symAt ts n) = head :: rest)
    (hs : ¬((0 < coerceQty (ts.getD n default) ∧ 0 < head.qty) ∨
      (coerceQty (ts.getD n default) < 0 ∧ head.qty < 0))) :
    EngineInv ts (n + 1) (pnlStep n (ts.getD n default) st) := by
  have hjlt : ∀ j ∈ (head :: rest).map Lot.idx, j < n := by
    intro j hj
    rcases List.mem_map.mp hj with ⟨l, hl, rfl⟩
    exact h.idx_lt _ _ (by rw [hinv]; exact hl)
  have hjsym : ∀ j ∈ (head :: rest).map Lot.idx, symAt ts j = symAt ts n := by
    intro j hj
    rcases List.mem_map.mp hj with ⟨l, hl, rfl⟩
    exact h.idx_sym _ _ (by rw [hinv]; exact hl)
  have hnd : ((head :: rest).map Lot.idx).Nodup := by
    have := h.idx_nodup (symAt ts n)
    rwa [hinv] at this
  have hpre : ∀ j ∈ (head :: rest).map Lot.idx,
      st.remaining j = findLotQty (head :: rest) j := by
    intro j hj
    rw [h.rem_eq j, hjsym j hj, hinv]
  have hnotn : n ∉ (head :: rest).map Lot.idx := fun hc => absurd (hjlt n hc) (by omega)
  set p := coercePrice (ts.getD n default) with hp
  set m := coerceMult (ts.getD n default) with hm
  set q := coerceQty (ts.getD n default) with hq
  have hrmem := consumeLots_remaining_mem p m q (head :: rest) st.remaining hnd hpre
  have hrout := consumeLots_remaining_not_mem p m q (head :: rest) st.remaining
  have hsub := consumeLots_idx_sublist p m q (head :: rest) st.remaining
  have hsum := consumeLots_sum p m q (head :: rest) st.remaining
  have hmemr : ∀ j, j ∈ ((consumeLots p m q (head :: rest) st.remaining).lots).map Lot.idx
      → j ∈ (head :: rest).map Lot.idx := fun j hj => hsub.subset hj
  by_cases hres : (consumeLots p m q (head :: rest) st.remaining).residual = 0
  · rw [pnlStep_close n (ts.getD n default) st head rest hinv hs hres]
    simp only [show (ts.getD n default).symbol = symAt ts n from rfl]
    refine ⟨?_, ?_, ?_, ?_, ?_⟩ <;> dsimp only
    · intro s l hl
      by_cases hss : s = symAt ts n
      · subst hss
        rw [updF_self] at hl
        rcases List.mem_map.mp (hmemr l.idx (List.mem_map_of_mem _ hl)) with ⟨l', hl', he⟩
        rw [← he]
        exact Nat.lt_succ_of_lt (h.idx_lt _ _ (by rw [hinv]; exact hl'))
      · rw [updF_ne _ _ _ _ hss] at hl
        exact Nat.lt_succ_of_lt (h.idx_lt _ _ hl)
    · intro s l hl
      by_cases hss : s = symAt ts n
      · subst hss
        rw [updF_self] at hl
        exact hjsym _ (hmemr l.idx (List.mem_map_of_mem _ hl))
      · rw [updF_ne _ _ _ _ hss] at hl
        exact h.idx_sym _ _ hl
    · intro s
      by_cases hss : s = symAt ts n
      · subst hss
        rw [updF_self]
        exact hnd.sublist hsub
      · rw [updF_ne _ _ _ _ hss]
        exact h.idx_nodup s
    · intro i
      by_cases hsi : symAt ts i = symAt ts n
      · rw [hsi, updF_self]
        by_cases hmem : i ∈ (head :: rest).map Lot.idx
        · exact hrmem i hmem
        · rw [hrout i hmem, h.rem_eq i, hsi, hinv, findLotQty_not_mem _ _ hmem,
            findLotQty_not_mem _ _ (fun hc => hmem (hmemr i hc))]
      · have hmem : i ∉ (head :: rest).map Lot.idx := fun hc => hsi (hjsym i hc)
        rw [updF_ne _ _ _ _ hsi, hrout i hmem, h.rem_eq i]
    · intro s
      by_cases hss : s = symAt ts n
      · subst hss
        rw [updF_self, qtySumUpTo_succ, ← h.sum_eq (symAt ts n), hinv, if_pos rfl]
        have : lotSum (consumeLots p m q (head :: rest) st.remaining).lots
            = lotSum (head :: rest) + q := by
          rw [← hsum, hres, add_zero]
        rw [this, hq]
        rfl
      · rw [updF_ne _ _ _ _ hss, qtySumUpTo_succ, if_neg (fun he => hss he.symm),
          add_zero, h.sum_eq s]
  · rw [pnlStep_flip n (ts.getD n default) st head rest hinv hs hres]
    simp only [show (ts.getD n default).symbol = symAt ts n from rfl]
    have hempty : (consumeLots p m q (head :: rest) st.remaining).lots = [] :=
      consumeLots_residual_ne_zero p m q (head :: rest) st.remaining hres
    refine ⟨?_, ?_, ?_, ?_, ?_⟩ <;> dsimp only
    · intro s l hl
      by_cases hss : s = symAt ts n
      · subst hss
        rw [updF_self, hempty, List.nil_append] at hl
        rcases List.mem_singleton.mp hl with rfl
        exact Nat.lt_succ_self n
      · rw [updF_ne _ _ _ _ hss] at hl
        exact Nat.lt_succ_of_lt (h.idx_lt _ _ hl)
    · intro s l hl
      by_cases hss : s = symAt ts n
      · subst hss
        rw [updF_self, hempty, List.nil_append] at hl
        rcases List.mem_singleton.mp hl with rfl
        rfl
      · rw [updF_ne _ _ _ _ hss] at hl
        exact h.idx_sym _ _ hl
    · intro s
      by_cases hss : s = symAt ts n
      · subst hss
        rw [updF_self, hempty, List.nil_append]
        exact List.nodup_singleton _
      · rw [updF_ne _ _ _ _ hss]
        exact h.idx_nodup s
    · intro i
      by_cases hin : i = n
      · subst hin
        rw [updF_self, updF_self, hempty, List.nil_append, findLotQty, if_pos rfl]
      · rw [updF_ne _ _ _ _ hin]
        by_cases hsi : symAt ts i = symAt ts n
        · rw [hsi, updF_self, hempty, List.nil_append, findLotQty,
            if_neg (fun he => hin he.symm), findLotQty]
          by_cases hmem : i ∈ (head :: rest).map Lot.idx
          · rw [hrmem i hmem, hempty, findLotQty]
          · rw [hrout i hmem, h.rem_eq i, hsi, hinv, findLotQty_not_mem _ _ hmem]
        · have hmem : i ∉ (head :: rest).map Lot.idx := fun hc => hsi (hjsym i hc)
          rw [updF_ne _ _ _ _ hsi, hrout i hmem, h.rem_eq i]
    · intro s
      by_cases hss : s = symAt ts n
      · subst hss
        rw [updF_self, lotSum_append, qtySumUpTo_succ, ← h.sum_eq (symAt ts n),
          hinv, if_pos rfl]
        have : lotSum [(⟨n, (consumeLots p m q (head :: rest) st.remaining).residual,
            p⟩ : Lot)] = (consumeLots p m q (head :: rest) st.remaining).residual := by
          simp [lotSum]
        rw [this, hsum, hq]
        rfl
      · rw [updF_ne _ _ _ _ hss, qtySumUpTo_succ, if_neg (fun he => hss he.symm),
          add_zero, h.sum_eq s]

/-- One step of the loop preserves the engine invariant. -/
theorem engineInv_step (ts : List Trade) (n : Nat) (st : PnlState)
    (h : EngineInv ts n st) :
    EngineInv ts (n + 1) (pnlStep n (ts.getD n default) st) := by
  cases hinv : st.inv (symAt ts n) with
  | nil =>
    rw [pnlStep_nil n (ts.getD n default) st hinv]
    have hpush := engineInv_push ts n st h
    rw [show st.inv (symAt ts n) = ([] : List Lot) from hinv, List.nil_append] at hpush
    exact hpush
  | cons head rest =>
    by_cases hs : (0 < coerceQty (ts.getD n default) ∧ 0 < head.qty) ∨
        (coerceQty (ts.getD n default) < 0 ∧ head.qty < 0)
    · rw [pnlStep_same_sign n (ts.getD n default) st head rest hinv hs]
      have hpush := engineInv_push ts n st h
      rw [show st.inv (symAt ts n) = head :: rest from hinv] at hpush
      exact hpush
    · exact engineInv_close ts n st h head rest hinv hs

/-- The engine invariant holds after any number of processed trades. -/
theorem engineInv_run (ts : List Trade) (n : Nat) : EngineInv ts n (pnlRun ts n) := by
  induction n with
  | zero => exact engineInv_init ts
  | succ k ih => exact engineInv_step ts k (pnlRun ts k) ih

/-- Summing the pointwise lot quantities over all trade indices of a symbol
recovers the inventory total. -/
lemma sum_findLotQty (ts : List Trade) (s : String) (N : Nat) (lots : List Lot)
    (hlt : ∀ l ∈ lots, l.idx < N) (hsym : ∀ l ∈ lots, symAt ts l.idx = s)
    (hnd : (lots.map Lot.idx).Nodup) :
    ∑ i in Finset.range N, (if symAt ts i = s then findLotQty lots i else 0)
      = lotSum lots := by
  induction lots with
  | nil => simp [findLotQty, lotSum]
  | cons lot rest ih =>
    have hlt' : ∀ l ∈ rest, l.idx < N := fun l hl => hlt l (List.mem_cons_of_mem _ hl)
    have hsym' : ∀ l ∈ rest, symAt ts l.idx = s :=
      fun l hl => hsym l (List.mem_cons_of_mem _ hl)
    rw [List.map_cons, List.nodup_cons] at hnd
    have hstep : ∀ i ∈ Finset.range N,
        (if symAt ts i = s then findLotQty (lot :: rest) i else 0)
          = (if symAt ts i = s then findLotQty rest i else 0)
            + (if i = lot.idx then lot.qty else 0) := by
      intro i _
      by_cases hil : i = lot.idx
      · subst hil
        rw [if_pos (hsym lot (List.mem_cons_self _ _)),
          if_pos (hsym lot (List.mem_cons_self _ _)), if_pos rfl, findLotQty,
          if_pos rfl, findLotQty_not_mem _ _ hnd.1, zero_add]
      · rw [if_neg hil, add_zero]
        by_cases hsi : symAt ts i = s
        · rw [if_pos hsi, if_pos hsi, findLotQty, if_neg (fun he => hil he.symm)]
        · rw [if_neg hsi, if_neg hsi]
    rw [Finset.sum_congr rfl hstep, Finset.sum_add_distrib, ih hlt' hsym' hnd.2,
      Finset.sum_ite_eq' (Finset.range N) lot.idx (fun _ => lot.qty),
      if_pos (Finset.mem_range.mpr (hlt lot (List.mem_cons_self _ _)))]
    simp only [lotSum, List.map_cons, List.sum_cons]
    ring

/-- C3: for every trade list whose quantities are all non-null and nonzero
and for every symbol, after `calculate_pnl` the sum of the symbol's trades'
signed quantities equals the sum of the final `remaining_qty` values
attributed to its trades, which in turn equals the total quantity left in
the symbol's open-lot FIFO inventory. -/
theorem c3_conservation (ts : List Trade)
    (hq : ∀ t ∈ ts, ∃ q : ℚ, t.quantity = some q ∧ q ≠ 0) (s : String) :
    qtySumUpTo ts s ts.length
      = remSumUpTo ts (calculate_pnl ts) s ts.length ∧
    remSumUpTo ts (calculate_pnl ts) s ts.length
      = lotSum ((calculate_pnl ts).inv s) := by
  have hI : EngineInv ts ts.length (calculate_pnl ts) := engineInv_run ts ts.length
  have hrem : remSumUpTo ts (calculate_pnl ts) s ts.length
      = ∑ i in Finset.range ts.length,
          (if symAt ts i = s then findLotQty ((calculate_pnl ts).inv s) i else 0) := by
    unfold remSumUpTo
    refine Finset.sum_congr rfl ?_
    intro i _
    by_cases hsi : symAt ts i = s
    · rw [if_pos hsi, if_pos hsi, hI.rem_eq i, hsi]
    · rw [if_neg hsi, if_neg hsi]
  have hkey := sum_findLotQty ts s ts.length ((calculate_pnl ts).inv s)
    (fun l hl => hI.idx_lt s l hl) (fun l hl => hI.idx_sym s l hl) (hI.idx_nodup s)
  constructor
  · rw [hrem, hkey, hI.sum_eq s]
  · rw [hrem, hkey]

/-- C3 witness: conservation on the concrete flip-through input; both sums
and the inventory total evaluate to -30 for symbol X. -/
theorem c3_conservation_witness :
    qtySumUpTo [⟨"X", some 50, some 10, some 1⟩,
      ⟨"X", some (-80), some 12, some 1⟩] "X" 2 = -30 ∧
    remSumUpTo [⟨"X", some 50, some 10, some 1⟩, ⟨"X", some (-80), some 12, some 1⟩]
      (calculate_pnl [⟨"X", some 50, some 10, some 1⟩,
        ⟨"X", some (-80), some 12, some 1⟩]) "X" 2 = -30 ∧
    lotSum ((calculate_pnl [⟨"X", some 50, some 10, some 1⟩,
      ⟨"X", some (-80), some 12, some 1⟩]).inv "X") = -30 := by
  have h := c3_conservation
    [⟨"X", some 50, some 10, some 1⟩, ⟨"X", some (-80), some 12, some 1⟩]
    (by
      intro t ht
      simp only [List.mem_cons, List.not_mem_nil, or_false] at ht
      rcases ht with rfl | rfl
      · exact ⟨50, rfl, by norm_num⟩
      · exact ⟨-80, rfl, by norm_num⟩) "X"
  norm_num at h
  have h1 : qtySumUpTo [⟨"X", some 50, some 10, some 1⟩,
      ⟨"X", some (-80), some 12, some 1⟩] "X" 2 = -30 := by
    norm_num [qtySumUpTo, Finset.sum_range_succ, symAt, qtyAt, coerceQty, List.getD]
  refine ⟨h1, ?_, ?_⟩
  · rw [← h.1]
    exact h1
  · rw [← h.2, ← h.1]
    exact h1

/-! ## C10 : single-sign inventory invariant -/

/-- If the closing quantity is nonpositive, consuming from an all-positive
queue leaves an all-positive queue. -/
lemma consumeLots_pos (p m : ℚ) (q : ℚ) (lots : List Lot) (rem : Nat → ℚ)
    (hq : q ≤ 0) (hpos : ∀ l ∈ lots, 0 < l.qty) :
    ∀ l ∈ (consumeLots p m q lots rem).lots, 0 < l.qty := by
  induction lots generalizing q rem with
  | nil => simp [consumeLots]
  | cons lot rest ih =>
    have hlot : 0 < lot.qty := hpos lot (List.mem_cons_self _ _)
    by_cases h0 : q = 0
    · simp only [consumeLots, if_pos h0]
      exact hpos
    · have hqlt : q < 0 := lt_of_le_of_ne hq h0
      have h1 : absQ lot.qty = lot.qty := by rw [absQ, if_neg (not_lt.mpr hlot.le)]
      have h2 : absQ q = -q := by rw [absQ, if_pos hqlt]
      by_cases habs : absQ lot.qty ≤ absQ q
      · simp only [consumeLots, if_neg h0, if_pos habs]
        rw [h1, h2] at habs
        exact ih _ _ (by linarith) (fun l hl => hpos l (List.mem_cons_of_mem _ hl))
      · simp only [consumeLots, if_neg h0, if_neg habs]
        rw [h1, h2] at habs
        push_neg at habs
        intro l hl
        rcases List.mem_cons.mp hl with rfl | hl'
        · dsimp only
          linarith
        · exact hpos l (List.mem_cons_of_mem _ hl')

/-- If the closing quantity is nonnegative, consuming from an all-negative
queue leaves an all-negative queue. -/
lemma consumeLots_neg (p m : ℚ) (q : ℚ) (lots : List Lot) (rem : Nat → ℚ)
    (hq : 0 ≤ q) (hneg : ∀ l ∈ lots, l.qty < 0) :
    ∀ l ∈ (consumeLots p m q lots rem).lots, l.qty < 0 := by
  induction lots generalizing q rem with
  | nil => simp [consumeLots]
  | cons lot rest ih =>
    have hlot : lot.qty < 0 := hneg lot (List.mem_cons_self _ _)
    by_cases h0 : q = 0
    · simp only [consumeLots, if_pos h0]
      exact hneg
    · have hqgt : 0 < q := lt_of_le_of_ne hq (Ne.symm h0)
      have h1 : absQ lot.qty = -lot.qty := by rw [absQ, if_pos hlot]
      have h2 : absQ q = q := by rw [absQ, if_neg (not_lt.mpr hq)]
      by_cases habs : absQ lot.qty ≤ absQ q
      · simp only [consumeLots, if_neg h0, if_pos habs]
        rw [h1, h2] at habs
        exact ih _ _ (by linarith) (fun l hl => hneg l (List.mem_cons_of_mem _ hl))
      · simp only [consumeLots, if_neg h0, if_neg habs]
        rw [h1, h2] at habs
        push_neg at habs
        intro l hl
        rcases List.mem_cons.mp hl with rfl | hl'
        · dsimp only
          linarith
        · exact hneg l (List.mem_cons_of_mem _ hl')

/-- All lots of any one symbol's inventory share one sign. -/
def SignOK (st : PnlState) : Prop :=
  ∀ s, (∀ l ∈ st.inv s, 0 < l.qty) ∨ (∀ l ∈ st.inv s, l.qty < 0)

lemma signOK_step (st : PnlState) (i : Nat) (t : Trade) (h : SignOK st)
    (hq : coerceQty t ≠ 0) : SignOK (pnlStep i t st) := by
  cases hinv : st.inv t.symbol with
  | nil =>
    rw [pnlStep_nil i t st hinv]
    intro s
    dsimp only
    by_cases hss : s = t.symbol
    · subst hss
      rw [updF_self]
      rcases hq.lt_or_lt with hlt | hlt
      · right
        intro l hl
        rcases List.mem_singleton.mp hl with rfl
        exact hlt
      · left
        intro l hl
        rcases List.mem_singleton.mp hl with rfl
        exact hlt
    · rw [updF_ne _ _ _ _ hss]
      exact h s
  | cons head rest =>
    have hhead : head ∈ st.inv t.symbol := by rw [hinv]; exact List.mem_cons_self _ _
    by_cases hs : (0 < coerceQty t ∧ 0 < head.qty) ∨ (coerceQty t < 0 ∧ head.qty < 0)
    · rw [pnlStep_same_sign i t st head rest hinv hs]
      intro s
      dsimp only
      by_cases hss : s = t.symbol
      · subst hss
        rw [updF_self]
        rcases hs with ⟨hq1, hh1⟩ | ⟨hq1, hh1⟩
        · left
          have hall : ∀ l ∈ st.inv t.symbol, 0 < l.qty := by
            rcases h t.symbol with hp | hn
            · exact hp
            · exact absurd (hn head hhead) (not_lt.mpr hh1.le)
          intro l hl
          rcases List.mem_append.mp hl with hm | hm
          · exact hall l (by rw [hinv]; exact hm)
          · rcases List.mem_singleton.mp hm with rfl
            exact hq1
        · right
          have hall : ∀ l ∈ st.inv t.symbol, l.qty < 0 := by
            rcases h t.symbol with hp | hn
            · exact absurd (hp head hhead) (not_lt.mpr hh1.le)
            · exact hn
          intro l hl
          rcases List.mem_append.mp hl with hm | hm
          · exact hall l (by rw [hinv]; exact hm)
          · rcases List.mem_singleton.mp hm with rfl
            exact hq1
      · rw [updF_ne _ _ _ _ hss]
        exact h s
    · have hcases : (coerceQty t < 0 ∧ ∀ l ∈ head :: rest, 0 < l.qty) ∨
          (0 < coerceQty t ∧ ∀ l ∈ head :: rest, l.qty < 0) := by
        rcases hq.lt_or_lt with hq1 | hq1
        · rcases h t.symbol with hp | hn
          · exact Or.inl ⟨hq1, fun l hl => hp l (by rw [hinv]; exact hl)⟩
          · exact absurd (Or.inr ⟨hq1, hn head hhead⟩) hs
        · rcases h t.symbol with hp | hn
          · exact absurd (Or.inl ⟨hq1, hp head hhead⟩) hs
          · exact Or.inr ⟨hq1, fun l hl => hn l (by rw [hinv]; exact hl)⟩
      by_cases hres : (consumeLots (coercePrice t) (coerceMult t) (coerceQty t)
          (head :: rest) st.remaining).residual = 0
      · rw [pnlStep_close i t st head rest hinv hs hres]
        intro s
        dsimp only
        by_cases hss : s = t.symbol
        · subst hss
          rw [updF_self]
          rcases hcases with ⟨hqlt, hall⟩ | ⟨hqgt, hall⟩
          · exact Or.inl (consumeLots_pos _ _ _ _ _ hqlt.le hall)
          · exact Or.inr (consumeLots_neg _ _ _ _ _ hqgt.le hall)
        · rw [updF_ne _ _ _ _ hss]
          exact h s
      · rw [pnlStep_flip i t st head rest hinv hs hres]
        intro s
        dsimp only
        by_cases hss : s = t.symbol
        · subst hss
          rw [updF_self, consumeLots_residual_ne_zero _ _ _ _ _ hres, List.nil_append]
          rcases Ne.lt_or_lt hres with hlt | hgt
          · right
            intro l hl
            rcases List.mem_singleton.mp hl with rfl
            exact hlt
          · left
            intro l hl
            rcases List.mem_singleton.mp hl with rfl
            exact hgt
        · rw [updF_ne _ _ _ _ hss]
          exact h s

/-- C10: under the precondition that every trade's quantity is non-null and
nonzero, after any number `n ≤ length` of processed trades every lot in any
one symbol's FIFO inventory has nonzero quantity and all lots of that
symbol share one sign (all positive or all negative), so the head-lot sign
comparison decides add-to-position versus reduce/close for the whole queue. -/
theorem c10_single_sign (ts : List Trade)
    (hq : ∀ t ∈ ts, ∃ qv : ℚ, t.quantity = some qv ∧ qv ≠ 0)
    (n : Nat) (hn : n ≤ ts.length) (s : String) :
    (∀ l ∈ (pnlRun ts n).inv s, l.qty ≠ 0) ∧
    ((∀ l ∈ (pnlRun ts n).inv s, 0 < l.qty) ∨ (∀ l ∈ (pnlRun ts n).inv s, l.qty < 0)) := by
  have main : ∀ k, k ≤ ts.length → SignOK (pnlRun ts k) := by
    intro k
    induction k with
    | zero =>
      intro _ s'
      left
      simp [pnlRun, initState]
    | succ j ihj =>
      intro hjlen
      have hjlt : j < ts.length := Nat.lt_of_succ_le hjlen
      have hqj : coerceQty (ts.getD j default) ≠ 0 := by
        have hmem : ts.getD j default ∈ ts := by
          rw [List.getD_eq_getElem ts default hjlt]
          exact List.getElem_mem hjlt
        rcases hq _ hmem with ⟨qv, hsome, hne⟩
        rw [coerceQty, hsome]
        simpa using hne
      exact signOK_step _ j _ (ihj (Nat.le_of_succ_le hjlen)) hqj
  have hmain := main n hn
  refine ⟨?_, hmain s⟩
  intro l hl
  rcases hmain s with hp | hn'
  · exact (hp l hl).ne'
  · exact (hn' l hl).ne

/-- C10 witness: after both trades of the flip-through input the inventory
of symbol X is the single short lot -30@12 - nonzero and uniformly signed. -/
theorem c10_single_sign_witness :
    (∀ l ∈ (pnlRun [(⟨"X", some 50, some 10, some 1⟩ : Trade),
        ⟨"X", some (-80), some 12, some 1⟩] 2).inv "X", l.qty ≠ 0) ∧
    ((∀ l ∈ (pnlRun [(⟨"X", some 50, some 10, some 1⟩ : Trade),
        ⟨"X", some (-80), some 12, some 1⟩] 2).inv "X", 0 < l.qty) ∨
     (∀ l ∈ (pnlRun [(⟨"X", some 50, some 10, some 1⟩ : Trade),
        ⟨"X", some (-80), some 12, some 1⟩] 2).inv "X", l.qty < 0)) := by
  refine c10_single_sign _ ?_ 2 (by norm_num) "X"
  intro t ht
  simp only [List.mem_cons, List.not_mem_nil, or_false] at ht
  rcases ht with rfl | rfl
  · exact ⟨50, rfl, by norm_num⟩
  · exact ⟨-80, rfl, by norm_num⟩

/-! ## C8 : null-default equivalence -/

/-- A loop step depends on its trade only through the symbol and the three
coerced numeric values. -/
lemma pnlStep_congr (i : Nat) (t₁ t₂ : Trade) (st : PnlState)
    (hsym : t₁.symbol = t₂.symbol) (hq : coerceQty t₁ = coerceQty t₂)
    (hp : coercePrice t₁ = coercePrice t₂) (hm : coerceMult t₁ = coerceMult t₂) :
    pnlStep i t₁ st = pnlStep i t₂ st := by
  simp only [pnlStep, hsym, hq, hp, hm]

lemma pnlRun_congr (ts₁ ts₂ : List Trade)
    (h : ∀ i, (ts₁.getD i default).symbol = (ts₂.getD i default).symbol ∧
      coerceQty (ts₁.getD i default) = coerceQty (ts₂.getD i default) ∧
      coercePrice (ts₁.getD i default) = coercePrice (ts₂.getD i default) ∧
      coerceMult (ts₁.getD i default) = coerceMult (ts₂.getD i default)) (n : Nat) :
    pnlRun ts₁ n = pnlRun ts₂ n := by
  induction n with
  | zero => rfl
  | succ k ih =>
    rw [pnlRun, pnlRun, ih]
    exact pnlStep_congr k _ _ _ (h k).1 (h k).2.1 (h k).2.2.1 (h k).2.2.2

lemma getD_set_ne (ts : List Trade) (i j : Nat) (u : Trade) (h : i ≠ j) :
    (ts.set i u).getD j default = ts.getD j default := by
  rw [List.getD_eq_getElem?_getD, List.getD_eq_getElem?_getD,
    List.getElem?_set_ne h]

lemma getD_set_lt (ts : List Trade) (i : Nat) (u : Trade) (h : i < ts.length) :
    (ts.set i u).getD i default = u := by
  rw [List.getD_eq_getElem?_getD, List.getElem?_set_self h]
  rfl

/-- C8: replacing a null `multiplier` by 1.0 in any one trade leaves the
entire output of `calculate_pnl` unchanged, and likewise a null `quantity`
or a null `tradePrice` is interchangeable with an explicit 0.0 (the
documented null defaults); the engine is a total function of the coerced
values, so a missing numeric field never raises. -/
theorem c8_null_defaults (ts : List Trade) (i : Nat) :
    ((ts.getD i default).multiplier = none →
      calculate_pnl (ts.set i { ts.getD i default with multiplier := some 1 })
        = calculate_pnl ts) ∧
    ((ts.getD i default).quantity = none →
      calculate_pnl (ts.set i { ts.getD i default with quantity := some 0 })
        = calculate_pnl ts) ∧
    ((ts.getD i default).tradePrice = none →
      calculate_pnl (ts.set i { ts.getD i default with tradePrice := some 0 })
        = calculate_pnl ts) := by
  have hcong : ∀ (u : Trade),
      (ts.getD i default).symbol = u.symbol →
      coerceQty (ts.getD i default) = coerceQty u →
      coercePrice (ts.getD i default) = coercePrice u →
      coerceMult (ts.getD i default) = coerceMult u →
      calculate_pnl (ts.set i u) = calculate_pnl ts := by
    intro u hsym hq hp hm
    unfold calculate_pnl
    rw [List.length_set]
    refine pnlRun_congr _ _ ?_ ts.length
    intro j
    by_cases hji : j = i
    · subst hji
      by_cases hlt : j < ts.length
      · rw [getD_set_lt ts j u hlt]
        exact ⟨hsym.symm ▸ rfl, hq.symm ▸ rfl, hp.symm ▸ rfl, hm.symm ▸ rfl⟩
      · rw [List.set_eq_of_length_le (Nat.le_of_not_lt hlt)]
        exact ⟨rfl, rfl, rfl, rfl⟩
    · rw [getD_set_ne ts i j u (fun he => hji he.symm)]
      exact ⟨rfl, rfl, rfl, rfl⟩
  refine ⟨?_, ?_, ?_⟩
  · intro hnull
    refine hcong _ rfl rfl rfl ?_
    rw [coerceMult, coerceMult, hnull]
    norm_num
  · intro hnull
    refine hcong _ rfl ?_ rfl rfl
    rw [coerceQty, coerceQty, hnull]
    rfl
  · intro hnull
    refine hcong _ rfl rfl ?_ rfl
    rw [coercePrice, coercePrice, hnull]
    rfl

/-- C8 witness: a one-trade list with null multiplier computes the same
enriched state as the same list with multiplier 1.0. -/
theorem c8_null_defaults_witness :
    calculate_pnl [(⟨"X", some 5, some 10, some 1⟩ : Trade)]
      = calculate_pnl [(⟨"X", some 5, some 10, none⟩ : Trade)] := by
  have h := (c8_null_defaults [(⟨"X", some 5, some 10, none⟩ : Trade)] 0).1 rfl
  exact h

/-! ## C5 : boundary NaN/Infinity normalization (`clean_nan`) -/

/-- A Python float: an exact value or one of the special values. -/
inductive PyF where
  | num (q : ℚ)
  | nan
  | inf
  | ninf
  deriving DecidableEq, Repr

/-- `math.isnan`. -/
def PyF.isnan : PyF → Bool
  | .nan => true
  | _ => false

/-- A JSON-like Python value as passed to `clean_nan`. -/
inductive JVal where
  | null
  | boolean (b : Bool)
  | str (s : String)
  | flt (f : PyF)
  | intg (n : Int)
  | arr (xs : List JVal)
  | obj (kvs : List (String × JVal))

mutual
/-- `clean_nan`: recurse into dicts and lists, map NaN floats to None,
leave everything else unchanged. -/
def clean_nan : JVal → JVal
  | .obj kvs => .obj (clean_nan_kvs kvs)
  | .arr xs => .arr (clean_nan_list xs)
  | .flt f => if f.isnan then .null else .flt f
  | .null => .null
  | .boolean b => .boolean b
  | .str s => .str s
  | .intg n => .intg n

def clean_nan_list : List JVal → List JVal
  | [] => []
  | v :: vs => clean_nan v :: clean_nan_list vs

def clean_nan_kvs : List (String × JVal) → List (String × JVal)
  | [] => []
  | kv :: kvs => (kv.1, clean_nan kv.2) :: clean_nan_kvs kvs
end

mutual
/-- Whether a value contains a NaN float anywhere. -/
def hasNaN : JVal → Bool
  | .flt f => f.isnan
  | .arr xs => hasNaNList xs
  | .obj kvs => hasNaNKvs kvs
  | .null => false
  | .boolean _ => false
  | .str _ => false
  | .intg _ => false

def hasNaNList : List JVal → Bool
  | [] => false
  | v :: vs => hasNaN v || hasNaNList vs

def hasNaNKvs : List (String × JVal) → Bool
  | [] => false
  | kv :: kvs => hasNaN kv.2 || hasNaNKvs kvs
end

mutual
theorem clean_nan_no_nan : ∀ v : JVal, hasNaN (clean_nan v) = false
  | .null => rfl
  | .boolean _ => rfl
  | .str _ => rfl
  | .intg _ => rfl
  | .flt f => by cases f <;> rfl
  | .arr xs => by
    rw [clean_nan, hasNaN]
    exact clean_nan_list_no_nan xs
  | .obj kvs => by
    rw [clean_nan, hasNaN]
    exact clean_nan_kvs_no_nan kvs

theorem clean_nan_list_no_nan : ∀ xs : List JVal, hasNaNList (clean_nan_list xs) = false
  | [] => rfl
  | v :: vs => by
    rw [clean_nan_list, hasNaNList, clean_nan_no_nan v, clean_nan_list_no_nan vs]
    rfl

theorem clean_nan_kvs_no_nan :
    ∀ kvs : List (String × JVal), hasNaNKvs (clean_nan_kvs kvs) = false
  | [] => rfl
  | kv :: kvs => by
    rw [clean_nan_kvs, hasNaNKvs, clean_nan_no_nan kv.2, clean_nan_kvs_no_nan kvs]
    rfl
end

mutual
theorem clean_nan_id : ∀ v : JVal, hasNaN v = false → clean_nan v = v
  | .null, _ => rfl
  | .boolean _, _ => rfl
  | .str _, _ => rfl
  | .intg _, _ => rfl
  | .flt f, h => by
    rw [clean_nan]
    rw [hasNaN] at h
    rw [h]
    rfl
  | .arr xs, h => by
    rw [clean_nan, clean_nan_list_id xs (by rw [hasNaN] at h; exact h)]
  | .obj kvs, h => by
    rw [clean_nan, clean_nan_kvs_id kvs (by rw [hasNaN] at h; exact h)]

theorem clean_nan_list_id :
    ∀ xs : List JVal, hasNaNList xs = false → clean_nan_list xs = xs
  | [], _ => rfl
  | v :: vs, h => by
    rw [hasNaNList, Bool.or_eq_false_iff] at h
    rw [clean_nan_list, clean_nan_id v h.1, clean_nan_list_id vs h.2]

theorem clean_nan_kvs_id :
    ∀ kvs : List (String × JVal), hasNaNKvs kvs = false → clean_nan_kvs kvs = kvs
  | [], _ => rfl
  | kv :: kvs, h => by
    rw [hasNaNKvs, Bool.or_eq_false_iff] at h
    rw [clean_nan_kvs, clean_nan_id kv.2 h.1, clean_nan_kvs_id kvs h.2]
end

/-- C5 counterexample: `clean_nan` does not replace Infinity - only
`math.isnan` is checked, and `isnan(inf)` is false, so an Infinity float
passes through unchanged instead of becoming the null sentinel. -/
theorem c5_counterexample :
    clean_nan (JVal.flt PyF.inf) = JVal.flt PyF.inf ∧
    clean_nan (JVal.flt PyF.inf) ≠ JVal.null := by
  constructor
  · rfl
  · intro h
    exact JVal.noConfusion h

/-- C5 (amended): for every JSON-like value, `clean_nan` replaces every
float that is NaN with the null sentinel None and leaves every other value
- including Infinity floats - unchanged: a NaN leaf maps to null, the
result never contains a NaN, and a NaN-free value (Infinity included) is
returned exactly as it came. -/
theorem c5_clean_nan (v : JVal) :
    clean_nan (JVal.flt PyF.nan) = JVal.null ∧
    hasNaN (clean_nan v) = false ∧
    (hasNaN v = false → clean_nan v = v) :=
  ⟨rfl, clean_nan_no_nan v, clean_nan_id v⟩

/-- C5 witness: the identity clause applied to a nested NaN-free value
holding an Infinity float inside a dict inside a list. -/
theorem c5_clean_nan_witness :
    clean_nan (JVal.arr [JVal.obj [("a", JVal.flt PyF.inf)], JVal.intg 3])
      = JVal.arr [JVal.obj [("a", JVal.flt PyF.inf)], JVal.intg 3] :=
  (c5_clean_nan (JVal.arr [JVal.obj [("a", JVal.flt PyF.inf)], JVal.intg 3])).2.2 rfl

/-! ## C4 / C9 : position sorting and allocation percentage

The tail of `get_all_positions` (lines 192-198): the already-built list of
position dicts is sorted by the requested key and then `mtm_pct` is
attached.  A position dict is modelled as a record of its fields; Python's
`list.sort(key=..., reverse=...)` is modelled as a comparison sort by the
induced total preorder (the claims concern the resulting order, not
stability); Python's code-point string comparison is modelled by `strLeB`
on the character lists and `str.lower` by the ASCII case map `lowerStr`. -/

structure Position where
  symbol : String
  value : ℚ
  mtm : ℚ
  unrlzd_pnl : ℚ
  s_qty : ℚ
  c_qty : ℚ
  p_qty : ℚ
  s_pnl : ℚ
  c_pnl : ℚ
  p_pnl : ℚ
  target_pct : ℚ
  mtm_pct : ℚ
  deriving DecidableEq

/-- ASCII lower-casing of one character, as `str.lower` acts on the
symbols occurring here. -/
def lowerChar (c : Char) : Char :=
  if 65 ≤ c.toNat ∧ c.toNat ≤ 90 then Char.ofNat (c.toNat + 32) else c

/-- `x['symbol'].lower()` as a character list. -/
def lowerStr (s : String) : List Char := s.data.map lowerChar

/-- Python's `<=` on strings: lexicographic by code point. -/
def strLeB : List Char → List Char → Bool
  | [], _ => true
  | _ :: _, [] => false
  | a :: as, b :: bs =>
    if a.toNat < b.toNat then true
    else if b.toNat < a.toNat then false
    else strLeB as bs

lemma strLeB_total : ∀ s t : List Char, strLeB s t = true ∨ strLeB t s = true
  | [], _ => Or.inl rfl
  | _ :: _, [] => Or.inr rfl
  | a :: as, b :: bs => by
    by_cases h1 : a.toNat < b.toNat
    · left
      rw [strLeB, if_pos h1]
    · by_cases h2 : b.toNat < a.toNat
      · right
        rw [strLeB, if_pos h2]
      · rcases strLeB_total as bs with h | h
        · left
          rw [strLeB, if_neg h1, if_neg h2, h]
        · right
          rw [strLeB, if_neg h2, if_neg h1, h]

lemma strLeB_head_le {a b : Char} {as bs : List Char}
    (h : strLeB (a :: as) (b :: bs) = true) : a.toNat ≤ b.toNat := by
  by_contra hh
  rw [strLeB, if_neg (by omega), if_pos (by omega)] at h
  exact Bool.noConfusion h

lemma strLeB_head_eq {a b : Char} {as bs : List Char}
    (h : strLeB (a :: as) (b :: bs) = true) (he : a.toNat = b.toNat) :
    strLeB as bs = true := by
  rwa [strLeB, if_neg (by omega), if_neg (by omega)] at h

lemma strLeB_trans : ∀ s t u : List Char,
    strLeB s t = true → strLeB t u = true → strLeB s u = true
  | [], _, u, _, _ => by cases u <;> rfl
  | _ :: _, [], _, h, _ => Bool.noConfusion h
  | _ :: _, _ :: _, [], _, h => Bool.noConfusion h
  | a :: as, b :: bs, c :: cs, h1, h2 => by
    have l1 := strLeB_head_le h1
    have l2 := strLeB_head_le h2
    by_cases hac : a.toNat < c.toNat
    · rw [strLeB, if_pos hac]
    · have he1 : a.toNat = b.toNat := by omega
      have he2 : b.toNat = c.toNat := by omega
      rw [strLeB, if_neg hac, if_neg (by omega)]
      exact strLeB_trans as bs cs (strLeB_head_eq h1 he1) (strLeB_head_eq h2 he2)

/-- `sort_by if sort_by in ['value', 'mtm', 'symbol', 's_qty'] else 'mtm'`. -/
def sortKeyOf (sort_by : String) : String :=
  if sort_by = "value" ∨ sort_by = "mtm" ∨ sort_by = "symbol" ∨ sort_by = "s_qty"
  then sort_by else "mtm"

/-- `x[sort_key]` for the numeric keys. -/
def numKey (k : String) (p : Position) : ℚ :=
  if k = "value" then p.value else if k = "s_qty" then p.s_qty else p.mtm

/-- The comparison induced by the key and the reverse flag actually passed
to `positions.sort`: `a` may precede `b`. -/
def posRelB (k : String) (rUsed : Bool) (a b : Position) : Bool :=
  if k = "symbol" then
    (if rUsed then strLeB (lowerStr b.symbol) (lowerStr a.symbol)
     else strLeB (lowerStr a.symbol) (lowerStr b.symbol))
  else
    (if rUsed then decide (numKey k b ≤ numKey k a)
     else decide (numKey k a ≤ numKey k b))

def posRel (k : String) (rUsed : Bool) (a b : Position) : Prop :=
  posRelB k rUsed a b = true

instance posRelDec (k : String) (rUsed : Bool) : DecidableRel (posRel k rUsed) :=
  fun a b => inferInstanceAs (Decidable (posRelB k rUsed a b = true))

instance posRelTotal (k : String) (rUsed : Bool) : IsTotal Position (posRel k rUsed) := by
  constructor
  intro a b
  unfold posRel posRelB
  by_cases hk : k = "symbol"
  · rw [if_pos hk, if_pos hk]
    cases rUsed
    · simp only [Bool.false_eq_true, if_false]
      exact strLeB_total _ _
    · simp only [if_true]
      exact strLeB_total _ _
  · rw [if_neg hk, if_neg hk]
    cases rUsed
    · simp only [Bool.false_eq_true, if_false, decide_eq_true_eq]
      exact le_total _ _
    · simp only [if_true, decide_eq_true_eq]
      exact le_total _ _

instance posRelTrans (k : String) (rUsed : Bool) : IsTrans Position (posRel k rUsed) := by
  constructor
  intro a b c hab hbc
  unfold posRel posRelB at hab hbc ⊢
  by_cases hk : k = "symbol"
  · rw [if_pos hk] at hab hbc ⊢
    cases rUsed
    · simp only [Bool.false_eq_true, if_false] at hab hbc ⊢
      exact strLeB_trans _ _ _ hab hbc
    · simp only [if_true] at hab hbc ⊢
      exact strLeB_trans _ _ _ hbc hab
  · rw [if_neg hk] at hab hbc ⊢
    cases rUsed
    · simp only [Bool.false_eq_true, if_false, decide_eq_true_eq] at hab hbc ⊢
      exact le_trans hab hbc
    · simp only [if_true, decide_eq_true_eq] at hab hbc ⊢
      exact le_trans hbc hab

/-- Lines 192-194 of `get_all_positions`: validate the key, compute
`reverse = not ascending`, invert it for the symbol key, and sort. -/
def get_all_positions_sort (ps : List Position) (sort_by : String)
    (ascending : Bool) : List Position :=
  let k := sortKeyOf sort_by
  let reverse := !ascending
  let rUsed := if k = "symbol" then !reverse else reverse
  List.insertionSort (posRel k rUsed) ps

/-- Lines 196-198 of `get_all_positions`: `total_mtm` and `mtm_pct`. -/
def attach_mtm_pct (ps : List Position) : List Position :=
  let total := (ps.map Position.mtm).sum
  ps.map (fun p => { p with mtm_pct := if total ≠ 0 then p.mtm / total * 100 else 0 })

/-- The sorted-and-percentaged position list emitted by `get_all_positions`. -/
def get_all_positions_tail (ps : List Position) (sort_by : String)
    (ascending : Bool) : List Position :=
  attach_mtm_pct (get_all_positions_sort ps sort_by ascending)

/-- A position with the given symbol, value, mtm and stock quantity and
all other numeric fields 0. -/
def mkPos (symbol : String) (value mtm s_qty : ℚ) : Position :=
  ⟨symbol, value, mtm, 0, s_qty, 0, 0, 0, 0, 0, 0, 0⟩

lemma decide_value_ne_symbol : (decide ("value" = "symbol")) = false := by decide

lemma decide_mtm_ne_symbol : (decide ("mtm" = "symbol")) = false := by decide

lemma decide_s_qty_ne_symbol : (decide ("s_qty" = "symbol")) = false := by decide

/-- C4 (amended): `get_all_positions` returns a permutation of the emitted
positions ordered by the requested key; for the numeric keys `value`,
`mtm` and `s_qty` the order is descending when the ascending flag is false
and ascending when it is true, and an unrecognized or absent key defaults
to `mtm`; for `symbol` the flag is applied INVERTED - case-insensitive
ascending order when the flag is false and descending when it is true. -/
theorem c4_sort_order (ps : List Position) (sort_by : String) (ascending : Bool) :
    (get_all_positions_sort ps sort_by ascending).Perm ps ∧
    (sort_by ∉ (["value", "mtm", "symbol", "s_qty"] : List String) →
      sortKeyOf sort_by = "mtm") ∧
    (sortKeyOf sort_by = "value" →
      (ascending = true → (get_all_positions_sort ps sort_by ascending).Sorted
        (fun a b => a.value ≤ b.value)) ∧
      (ascending = false → (get_all_positions_sort ps sort_by ascending).Sorted
        (fun a b => b.value ≤ a.value))) ∧
    (sortKeyOf sort_by = "mtm" →
      (ascending = true → (get_all_positions_sort ps sort_by ascending).Sorted
        (fun a b => a.mtm ≤ b.mtm)) ∧
      (ascending = false → (get_all_positions_sort ps sort_by ascending).Sorted
        (fun a b => b.mtm ≤ a.mtm))) ∧
    (sortKeyOf sort_by = "s_qty" →
      (ascending = true → (get_all_positions_sort ps sort_by ascending).Sorted
        (fun a b => a.s_qty ≤ b.s_qty)) ∧
      (ascending = false → (get_all_positions_sort ps sort_by ascending).Sorted
        (fun a b => b.s_qty ≤ a.s_qty))) ∧
    (sortKeyOf sort_by = "symbol" →
      (ascending = true → (get_all_positions_sort ps sort_by ascending).Sorted
        (fun a b => strLeB (lowerStr b.symbol) (lowerStr a.symbol) = true)) ∧
      (ascending = false → (get_all_positions_sort ps sort_by ascending).Sorted
        (fun a b => strLeB (lowerStr a.symbol) (lowerStr b.symbol) = true))) := by
  refine ⟨List.perm_insertionSort _ _, ?_, ?_, ?_, ?_, ?_⟩
  · intro hnotin
    unfold sortKeyOf
    rw [if_neg]
    simpa using hnotin
  · intro hk
    constructor <;> intro hasc <;> subst hasc
    · have hform : get_all_positions_sort ps sort_by true
          = List.insertionSort (posRel "value" false) ps := by
        unfold get_all_positions_sort
        rw [hk]
        norm_num [decide_value_ne_symbol]
      rw [hform]
      exact List.Pairwise.imp
        (fun hab => by simpa [posRel, posRelB, numKey] using hab)
        (List.sorted_insertionSort _ ps)
    · have hform : get_all_positions_sort ps sort_by false
          = List.insertionSort (posRel "value" true) ps := by
        unfold get_all_positions_sort
        rw [hk]
        norm_num [decide_value_ne_symbol]
      rw [hform]
      exact List.Pairwise.imp
        (fun hab => by simpa [posRel, posRelB, numKey] using hab)
        (List.sorted_insertionSort _ ps)
  · intro hk
    constructor <;> intro hasc <;> subst hasc
    · have hform : get_all_positions_sort ps sort_by true
          = List.insertionSort (posRel "mtm" false) ps := by
        unfold get_all_positions_sort
        rw [hk]
        norm_num [decide_mtm_ne_symbol]
      rw [hform]
      exact List.Pairwise.imp
        (fun hab => by simpa [posRel, posRelB, numKey] using hab)
        (List.sorted_insertionSort _ ps)
    · have hform : get_all_positions_sort ps sort_by false
          = List.insertionSort (posRel "mtm" true) ps := by
        unfold get_all_positions_sort
        rw [hk]
        norm_num [decide_mtm_ne_symbol]
      rw [hform]
      exact List.Pairwise.imp
        (fun hab => by simpa [posRel, posRelB, numKey] using hab)
        (List.sorted_insertionSort _ ps)
  · intro hk
    constructor <;> intro hasc <;> subst hasc
    · have hform : get_all_positions_sort ps sort_by true
          = List.insertionSort (posRel "s_qty" false) ps := by
        unfold get_all_positions_sort
        rw [hk]
        norm_num [decide_s_qty_ne_symbol]
      rw [hform]
      exact List.Pairwise.imp
        (fun hab => by simpa [posRel, posRelB, numKey] using hab)
        (List.sorted_insertionSort _ ps)
    · have hform : get_all_positions_sort ps sort_by false
          = List.insertionSort (posRel "s_qty" true) ps := by
        unfold get_all_positions_sort
        rw [hk]
        norm_num [decide_s_qty_ne_symbol]
      rw [hform]
      exact List.Pairwise.imp
        (fun hab => by simpa [posRel, posRelB, numKey] using hab)
        (List.sorted_insertionSort _ ps)
  · intro hk
    constructor <;> intro hasc <;> subst hasc
    · have hform : get_all_positions_sort ps sort_by true
          = List.insertionSort (posRel "symbol" true) ps := by
        unfold get_all_positions_sort
        rw [hk]
        norm_num
      rw [hform]
      exact List.Pairwise.imp
        (fun hab => by simpa [posRel, posRelB] using hab)
        (List.sorted_insertionSort _ ps)
    · have hform : get_all_positions_sort ps sort_by false
          = List.insertionSort (posRel "symbol" false) ps := by
        unfold get_all_positions_sort
        rw [hk]
        norm_num
      rw [hform]
      exact List.Pairwise.imp
        (fun hab => by simpa [posRel, posRelB] using hab)
        (List.sorted_insertionSort _ ps)

/-- C4 witness: sorting two positions by mtm with the flag false puts the
larger mtm first, and the output is a permutation of the input. -/
theorem c4_sort_order_witness :
    (get_all_positions_sort [mkPos "x" 0 30 0, mkPos "y" 0 70 0] "mtm" false).Perm
      [mkPos "x" 0 30 0, mkPos "y" 0 70 0] ∧
    (get_all_positions_sort [mkPos "x" 0 30 0, mkPos "y" 0 70 0] "mtm" false).Sorted
      (fun a b => b.mtm ≤ a.mtm) := by
  have h := c4_sort_order [mkPos "x" 0 30 0, mkPos "y" 0 70 0] "mtm" false
  exact ⟨h.1, (h.2.2.2.1 (by norm_num [sortKeyOf])).2 rfl⟩

/-- C4 counterexample: with `sort_by = 'symbol'` and the ascending flag
false the code sorts the symbols ASCENDING ('a' before 'b'), because line
194 inverts the reverse flag for the symbol key - the claimed descending
order is violated. -/
theorem c4_counterexample :
    get_all_positions_sort [mkPos "a" 0 0 0, mkPos "b" 0 0 0] "symbol" false
      = [mkPos "a" 0 0 0, mkPos "b" 0 0 0] ∧
    ¬ List.Sorted (fun x y : Position => strLeB y.symbol.data x.symbol.data = true)
      (get_all_positions_sort [mkPos "a" 0 0 0, mkPos "b" 0 0 0] "symbol" false) := by
  have hout : get_all_positions_sort [mkPos "a" 0 0 0, mkPos "b" 0 0 0] "symbol" false
      = [mkPos "a" 0 0 0, mkPos "b" 0 0 0] := by
    decide
  refine ⟨hout, ?_⟩
  intro hsort
  rw [hout] at hsort
  rcases List.pairwise_cons.mp hsort with ⟨h1, _⟩
  have h2 := h1 _ (List.mem_singleton.mpr rfl)
  simp only [mkPos] at h2
  exact absurd h2 (by decide)

/-- C9: every position emitted by the `get_all_positions` tail carries
`mtm_pct = mtm / total_mtm * 100` where `total_mtm` is the sum of the
emitted positions' `mtm` (equal to the sum over the input positions, the
output being a permutation), and carries `mtm_pct = 0` whenever
`total_mtm = 0` - the guarded branch never divides by a zero total. -/
theorem c9_mtm_pct (ps : List Position) (sort_by : String) (ascending : Bool)
    (p : Position) (hp : p ∈ get_all_positions_tail ps sort_by ascending) :
    (((get_all_positions_sort ps sort_by ascending).map Position.mtm).sum
      = (ps.map Position.mtm).sum) ∧
    ((ps.map Position.mtm).sum ≠ 0 →
      p.mtm_pct = p.mtm / (ps.map Position.mtm).sum * 100) ∧
    ((ps.map Position.mtm).sum = 0 → p.mtm_pct = 0) := by
  have hperm : (get_all_positions_sort ps sort_by ascending).Perm ps :=
    List.perm_insertionSort _ _
  have hsum : ((get_all_positions_sort ps sort_by ascending).map Position.mtm).sum
      = (ps.map Position.mtm).sum := (hperm.map Position.mtm).sum_eq
  refine ⟨hsum, ?_, ?_⟩ <;> intro htot
  · rcases List.mem_map.mp hp with ⟨p₀, hp₀, rfl⟩
    dsimp only
    rw [hsum, if_pos htot]
  · rcases List.mem_map.mp hp with ⟨p₀, hp₀, rfl⟩
    dsimp only
    rw [hsum, if_neg (fun hc => hc htot)]

/-- C9 witness: a singleton position with mtm 30 gets
`mtm_pct = 30 / 30 * 100`, by the theorem applied at that position. -/
theorem c9_mtm_pct_witness :
    ({ mkPos "a" 0 30 0 with mtm_pct := 30 / 30 * 100 } : Position).mtm_pct
      = (mkPos "a" 0 30 0).mtm / (([mkPos "a" 0 30 0] : List Position).map
          Position.mtm).sum * 100 := by
  have hp : ({ mkPos "a" 0 30 0 with mtm_pct := 30 / 30 * 100 } : Position)
      ∈ get_all_positions_tail [mkPos "a" 0 30 0] "mtm" false := by
    norm_num [get_all_positions_tail, get_all_positions_sort, attach_mtm_pct,
      List.insertionSort, mkPos]
  have h := c9_mtm_pct [mkPos "a" 0 30 0] "mtm" false _ hp
  exact h.2.1 (by norm_num [mkPos])

/-! ## C6 / C7 : daily and weekly statistics

The stats views read only the trade's normalized calendar day and its
realized P&L, so a trade is modelled as a `(day, pnl)` pair.  Days are
counted so that pandas `dayofweek` is `day % 7` with Monday = 0, ...,
Sunday = 6 (day 0 is a Monday). -/

def minDate : List (ℕ × ℚ) → ℕ
  | [] => 0
  | tr :: rest => (rest.map Prod.fst).foldl min tr.1

def maxDate : List (ℕ × ℚ) → ℕ
  | [] => 0
  | tr :: rest => (rest.map Prod.fst).foldl max tr.1

/-- The realized-P&L total of one calendar day
(`df.groupby('date_only')['realized_pnl'].sum()`, with the reindex
fill value 0 for a day with no trades). -/
def sumPnlOn (trades : List (ℕ × ℚ)) (d : ℕ) : ℚ :=
  ((trades.filter (fun tr => decide (tr.1 = d))).map Prod.snd).sum

/-- `get_daily_stats`: group by day, reindex over the full calendar range
from the minimum to the maximum trade date filling 0, then keep weekdays
unconditionally and weekend days only with nonzero P&L, in date order. -/
def get_daily_stats (trades : List (ℕ × ℚ)) : List (ℕ × ℚ) :=
  match trades with
  | [] => []
  | _ :: _ =>
    ((List.range' (minDate trades) (maxDate trades + 1 - minDate trades)).map
        (fun d => (d, sumPnlOn trades d))).filter
      (fun r => decide (r.1 % 7 < 5) || decide (r.2 ≠ 0))

/-- The Friday ending the `W-FRI` bin a day falls into: the unique Friday
on or after the day and less than seven days later (pandas `resample`
with right-closed, right-labeled weekly bins anchored on Friday). -/
def weekFriday (d : ℕ) : ℕ := d + (11 - d % 7) % 7

/-- The realized-P&L total of one weekly bucket. -/
def weekSum (trades : List (ℕ × ℚ)) (f : ℕ) : ℚ :=
  ((trades.filter (fun tr => decide (weekFriday tr.1 = f))).map Prod.snd).sum

/-- `get_weekly_stats`: consecutive Friday-labeled buckets spanning the
trade dates, each holding the realized-P&L sum of its bin. -/
def get_weekly_stats (trades : List (ℕ × ℚ)) : List (ℕ × ℚ) :=
  match trades with
  | [] => []
  | _ :: _ =>
    (List.range ((weekFriday (maxDate trades) - weekFriday (minDate trades)) / 7 + 1)).map
      (fun k => (weekFriday (minDate trades) + 7 * k,
        weekSum trades (weekFriday (minDate trades) + 7 * k)))

lemma foldl_min_le_init (l : List ℕ) (a : ℕ) : l.foldl min a ≤ a := by
  induction l generalizing a with
  | nil => exact le_refl a
  | cons b bs ih => exact le_trans (ih (min a b)) (min_le_left a b)

lemma foldl_min_le_mem (l : List ℕ) (a x : ℕ) (h : x ∈ l) : l.foldl min a ≤ x := by
  induction l generalizing a with
  | nil => cases h
  | cons b bs ih =>
    rcases List.mem_cons.mp h with rfl | h'
    · exact le_trans (foldl_min_le_init bs (min a x)) (min_le_right a x)
    · exact ih _ h'

lemma foldl_min_mem_or (l : List ℕ) (a : ℕ) :
    l.foldl min a = a ∨ l.foldl min a ∈ l := by
  induction l generalizing a with
  | nil => exact Or.inl rfl
  | cons b bs ih =>
    rcases ih (min a b) with h | h
    · rcases le_total a b with hab | hab
      · exact Or.inl (by rw [List.foldl_cons, h, min_eq_left hab])
      · refine Or.inr ?_
        rw [List.foldl_cons, h, min_eq_right hab]
        exact List.mem_cons_self _ _
    · exact Or.inr (List.mem_cons_of_mem _ h)

lemma foldl_max_init_le (l : List ℕ) (a : ℕ) : a ≤ l.foldl max a := by
  induction l generalizing a with
  | nil => exact le_refl a
  | cons b bs ih => exact le_trans (le_max_left a b) (ih (max a b))

lemma foldl_max_mem_le (l : List ℕ) (a x : ℕ) (h : x ∈ l) : x ≤ l.foldl max a := by
  induction l generalizing a with
  | nil => cases h
  | cons b bs ih =>
    rcases List.mem_cons.mp h with rfl | h'
    · exact le_trans (le_max_right a x) (foldl_max_init_le bs (max a x))
    · exact ih _ h'

lemma foldl_max_mem_or (l : List ℕ) (a : ℕ) :
    l.foldl max a = a ∨ l.foldl max a ∈ l := by
  induction l generalizing a with
  | nil => exact Or.inl rfl
  | cons b bs ih =>
    rcases ih (max a b) with h | h
    · rcases le_total b a with hab | hab
      · exact Or.inl (by rw [List.foldl_cons, h, max_eq_left hab])
      · refine Or.inr ?_
        rw [List.foldl_cons, h, max_eq_right hab]
        exact List.mem_cons_self _ _
    · exact Or.inr (List.mem_cons_of_mem _ h)

lemma minDate_le (trades : List (ℕ × ℚ)) (tr : ℕ × ℚ) (h : tr ∈ trades) :
    minDate trades ≤ tr.1 := by
  cases trades with
  | nil => cases h
  | cons t rest =>
    rcases List.mem_cons.mp h with rfl | h'
    · exact foldl_min_le_init _ _
    · exact foldl_min_le_mem _ _ _ (List.mem_map_of_mem _ h')

lemma le_maxDate (trades : List (ℕ × ℚ)) (tr : ℕ × ℚ) (h : tr ∈ trades) :
    tr.1 ≤ maxDate trades := by
  cases trades with
  | nil => cases h
  | cons t rest =>
    rcases List.mem_cons.mp h with rfl | h'
    · exact foldl_max_init_le _ _
    · exact foldl_max_mem_le _ _ _ (List.mem_map_of_mem _ h')

lemma minDate_mem (trades : List (ℕ × ℚ)) (h : trades ≠ []) :
    ∃ tr ∈ trades, tr.1 = minDate trades := by
  cases trades with
  | nil => exact absurd rfl h
  | cons t rest =>
    rcases foldl_min_mem_or (rest.map Prod.fst) t.1 with he | hm
    · exact ⟨t, List.mem_cons_self _ _, he.symm⟩
    · rcases List.mem_map.mp hm with ⟨u, hu, he⟩
      exact ⟨u, List.mem_cons_of_mem _ hu, he⟩

lemma maxDate_mem (trades : List (ℕ × ℚ)) (h : trades ≠ []) :
    ∃ tr ∈ trades, tr.1 = maxDate trades := by
  cases trades with
  | nil => exact absurd rfl h
  | cons t rest =>
    rcases foldl_max_mem_or (rest.map Prod.fst) t.1 with he | hm
    · exact ⟨t, List.mem_cons_self _ _, he.symm⟩
    · rcases List.mem_map.mp hm with ⟨u, hu, he⟩
      exact ⟨u, List.mem_cons_of_mem _ hu, he⟩

lemma get_daily_stats_of_ne_nil (trades : List (ℕ × ℚ)) (h : trades ≠ []) :
    get_daily_stats trades
      = ((List.range' (minDate trades) (maxDate trades + 1 - minDate trades)).map
          (fun d => (d, sumPnlOn trades d))).filter
        (fun r => decide (r.1 % 7 < 5) || decide (r.2 ≠ 0)) := by
  cases trades with
  | nil => exact absurd rfl h
  | cons a l => rfl

lemma sumPnlOn_zero (trades : List (ℕ × ℚ)) (x : ℕ)
    (h : ∀ tr ∈ trades, tr.1 ≠ x) : sumPnlOn trades x = 0 := by
  unfold sumPnlOn
  rw [List.filter_eq_nil_iff.mpr (by simpa using h)]
  rfl

lemma pairwise_lt_range' : ∀ (n s : ℕ), (List.range' s n).Pairwise (· < ·)
  | 0, _ => List.Pairwise.nil
  | n + 1, s => by
    rw [List.range'_succ]
    refine List.pairwise_cons.mpr ⟨?_, pairwise_lt_range' n (s + 1)⟩
    intro b hb
    have := (List.mem_range'_1.mp hb).1
    omega

/-- C6: (a) trades carrying realized P&L only on a Monday `d` and the
following Thursday `d+3` produce exactly the four rows Monday through
Thursday with explicit zero P&L on Tuesday and Wednesday; (b) a Saturday
or Sunday row is only ever emitted with nonzero P&L; (c) the rows are
ordered by date ascending. -/
theorem c6_daily_stats :
    (∀ (trades : List (ℕ × ℚ)) (d : ℕ), d % 7 = 0 →
      (∀ tr ∈ trades, tr.1 = d ∨ tr.1 = d + 3) →
      (∃ tr ∈ trades, tr.1 = d) → (∃ tr ∈ trades, tr.1 = d + 3) →
      get_daily_stats trades
        = [(d, sumPnlOn trades d), (d + 1, 0), (d + 2, 0),
           (d + 3, sumPnlOn trades (d + 3))]) ∧
    (∀ (trades : List (ℕ × ℚ)) (r : ℕ × ℚ), r ∈ get_daily_stats trades →
      5 ≤ r.1 % 7 → r.2 ≠ 0) ∧
    (∀ trades : List (ℕ × ℚ),
      (get_daily_stats trades).Pairwise (fun a b => a.1 < b.1)) := by
  refine ⟨?_, ?_, ?_⟩
  · intro trades d hmon hall hex1 hex2
    have hne : trades ≠ [] := by
      rcases hex1 with ⟨tr, htr, _⟩
      intro hc
      subst hc
      cases htr
    have hmin : minDate trades = d := by
      rcases hex1 with ⟨tr0, htr0, he0⟩
      have h1 : minDate trades ≤ d := he0 ▸ minDate_le trades tr0 htr0
      rcases minDate_mem trades hne with ⟨u, hu, he⟩
      rcases hall u hu with h | h <;> omega
    have hmax : maxDate trades = d + 3 := by
      rcases hex2 with ⟨tr0, htr0, he0⟩
      have h1 : d + 3 ≤ maxDate trades := he0 ▸ le_maxDate trades tr0 htr0
      rcases maxDate_mem trades hne with ⟨u, hu, he⟩
      rcases hall u hu with h | h <;> omega
    rw [get_daily_stats_of_ne_nil trades hne, hmin, hmax,
      show d + 3 + 1 - d = 4 by omega,
      show List.range' d 4 = [d, d + 1, d + 2, d + 3] from rfl]
    have hz1 : sumPnlOn trades (d + 1) = 0 :=
      sumPnlOn_zero _ _ (fun tr htr => by rcases hall tr htr with h | h <;> omega)
    have hz2 : sumPnlOn trades (d + 2) = 0 :=
      sumPnlOn_zero _ _ (fun tr htr => by rcases hall tr htr with h | h <;> omega)
    have hc0 : d % 7 < 5 := by omega
    have hc1 : (d + 1) % 7 < 5 := by omega
    have hc2 : (d + 2) % 7 < 5 := by omega
    have hc3 : (d + 3) % 7 < 5 := by omega
    simp [List.filter, hz1, hz2, hc0, hc1, hc2, hc3]
  · intro trades r hr hwk
    have hne : trades ≠ [] := by
      intro hc
      subst hc
      cases hr
    rw [get_daily_stats_of_ne_nil trades hne] at hr
    have hpred := (List.mem_filter.mp hr).2
    simp only [Bool.or_eq_true, decide_eq_true_eq] at hpred
    rcases hpred with h | h
    · omega
    · exact h
  · intro trades
    by_cases hne : trades = []
    · subst hne
      exact List.Pairwise.nil
    · rw [get_daily_stats_of_ne_nil trades hne]
      refine List.Pairwise.filter _ ?_
      rw [List.pairwise_map]
      exact List.Pairwise.imp (fun h => h) (pairwise_lt_range' _ _)

/-- C6 witness: trades on Monday day 0 (P&L 5) and Thursday day 3 (P&L 7)
produce rows for days 0,1,2,3 with zeros filled in between, weekend-free
and date-ascending. -/
theorem c6_daily_stats_witness :
    get_daily_stats [(0, 5), (3, 7)] = [(0, 5), (1, 0), (2, 0), (3, 7)] := by
  have h := c6_daily_stats.1 [(0, 5), (3, 7)] 0 rfl
    (by
      intro tr htr
      simp only [List.mem_cons, List.not_mem_nil, or_false] at htr
      rcases htr with rfl | rfl
      · exact Or.inl rfl
      · exact Or.inr rfl)
    ⟨(0, 5), by norm_num⟩ ⟨(3, 7), by norm_num⟩
  rw [h]
  norm_num [sumPnlOn, List.filter]

lemma get_weekly_stats_of_ne_nil (trades : List (ℕ × ℚ)) (h : trades ≠ []) :
    get_weekly_stats trades
      = (List.range ((weekFriday (maxDate trades) - weekFriday (minDate trades)) / 7
            + 1)).map
          (fun k => (weekFriday (minDate trades) + 7 * k,
            weekSum trades (weekFriday (minDate trades) + 7 * k))) := by
  cases trades with
  | nil => exact absurd rfl h
  | cons a l => rfl

lemma weekFriday_mono {a b : ℕ} (h : a ≤ b) : weekFriday a ≤ weekFriday b := by
  unfold weekFriday
  omega

lemma weekFriday_mod (x : ℕ) : weekFriday x % 7 = 4 := by
  unfold weekFriday
  omega

/-- C7: (i) for a day `d` in the Monday-Friday span, `weekFriday d` is that
week's Friday: it is a Friday, lies at or after `d`, and equals
`d + (4 - dayofweek d)`, at most four days later; (ii) every trade's
realized P&L is binned into the bucket labeled `weekFriday` of its date;
(iii) each emitted bucket's P&L is the sum of realized P&L of the trades
binned into it; (iv) buckets are emitted in ascending week order. -/
theorem c7_weekly_stats :
    (∀ d : ℕ, d % 7 < 5 →
      weekFriday d % 7 = 4 ∧ d ≤ weekFriday d ∧
      weekFriday d = d + (4 - d % 7) ∧ weekFriday d ≤ d + 4) ∧
    (∀ (trades : List (ℕ × ℚ)) (tr : ℕ × ℚ), tr ∈ trades →
      (weekFriday tr.1, weekSum trades (weekFriday tr.1)) ∈ get_weekly_stats trades) ∧
    (∀ (trades : List (ℕ × ℚ)) (f : ℕ) (v : ℚ), (f, v) ∈ get_weekly_stats trades →
      v = weekSum trades f) ∧
    (∀ trades : List (ℕ × ℚ),
      (get_weekly_stats trades).Pairwise (fun a b => a.1 < b.1)) := by
  refine ⟨?_, ?_, ?_, ?_⟩
  · intro d hd
    unfold weekFriday
    refine ⟨by omega, by omega, by omega, by omega⟩
  · intro trades tr htr
    have hne : trades ≠ [] := by
      intro hc
      subst hc
      cases htr
    rw [get_weekly_stats_of_ne_nil trades hne]
    have h1 : minDate trades ≤ tr.1 := minDate_le _ _ htr
    have h2 : tr.1 ≤ maxDate trades := le_maxDate _ _ htr
    have hmono1 : weekFriday (minDate trades) ≤ weekFriday tr.1 := weekFriday_mono h1
    have hmono2 : weekFriday tr.1 ≤ weekFriday (maxDate trades) := weekFriday_mono h2
    have ha := weekFriday_mod (minDate trades)
    have hb := weekFriday_mod tr.1
    refine List.mem_map.mpr
      ⟨(weekFriday tr.1 - weekFriday (minDate trades)) / 7, List.mem_range.mpr ?_, ?_⟩
    · omega
    · have he : weekFriday (minDate trades)
          + 7 * ((weekFriday tr.1 - weekFriday (minDate trades)) / 7)
          = weekFriday tr.1 := by omega
      rw [he]
  · intro trades f v hmem
    have hne : trades ≠ [] := by
      intro hc
      subst hc
      cases hmem
    rw [get_weekly_stats_of_ne_nil trades hne] at hmem
    rcases List.mem_map.mp hmem with ⟨k, _, he⟩
    rcases Prod.mk.injEq .. |>.mp he with ⟨h1, h2⟩
    rw [← h2, ← h1]
  · intro trades
    by_cases hne : trades = []
    · subst hne
      exact List.Pairwise.nil
    · rw [get_weekly_stats_of_ne_nil trades hne]
      rw [List.pairwise_map]
      exact List.Pairwise.imp (fun h => by dsimp only; omega)
        (List.pairwise_lt_range _)

/-- C7 witness: a single trade on Monday day 0 with P&L 5 lands in the
bucket labeled day 4, that week's Friday. -/
theorem c7_weekly_stats_witness :
    ((4 : ℕ), (5 : ℚ)) ∈ get_weekly_stats [(0, 5)] := by
  have h := c7_weekly_stats.2.1 [(0, 5)] (0, 5) (List.mem_cons_self _ _)
  have h4 : weekFriday (0, (5 : ℚ)).1 = 4 := by norm_num [weekFriday]
  rw [h4] at h
  have hsum : weekSum [(0, 5)] 4 = 5 := by
    norm_num [weekSum, weekFriday, List.filter]
  rw [hsum] at h
  exact h

end TT
